import Mathlib

/-!
Verification of the Emyzelium (Python) messaging substrate.

Shallow embedding conventions:
* Python `str` is modelled as `List Char` (`PyStr`); Lean `Char` is a
  Unicode scalar value, which matches exactly the strings Python's
  strict `utf8` codec can encode.
* Python `bytes` is modelled as `List Nat` (`Bytes`), one entry per byte.
* Python `dict` (insertion-ordered, unique keys) is modelled as an
  association list iterated in order; assignment to an existing key
  keeps its position, assignment to a fresh key appends.
* Python `set` (where only membership matters plus the emptiness test)
  is modelled as a duplicate-free list built with `setAdd`.
* Fallible operations (`bytes.decode`, `z85.encode`) return `Option` /
  `Except`; `none` / `Except.error` models the raised exception.
* Socket calls are recorded as explicit events (`SockAction`) where a
  claim depends on them; otherwise they are omitted from the state.
-/

set_option linter.unusedVariables false

abbrev PyStr := List Char
abbrev Bytes := List Nat

/-! ## Python dict / set as association list -/

def alistLookup {β : Type} : List (PyStr × β) → PyStr → Option β
  | [], _ => none
  | (k, v) :: rest, key => if k = key then some v else alistLookup rest key

/-- `d[key] = val` on a Python dict: overwrite in place if present
(keeping insertion order), else append. -/
def alistSet {β : Type} : List (PyStr × β) → PyStr → β → List (PyStr × β)
  | [], key, val => [(key, val)]
  | (k, v) :: rest, key, val =>
    if k = key then (k, val) :: rest else (k, v) :: alistSet rest key val

/-- `del d[key]` (no-op when absent; callers guard with `in`). -/
def alistRemove {β : Type} : List (PyStr × β) → PyStr → List (PyStr × β)
  | [], _ => []
  | (k, v) :: rest, key => if k = key then rest else (k, v) :: alistRemove rest key

/-- `s.add(x)` on a Python set modelled as a duplicate-free list. -/
def setAdd (s : List PyStr) (x : PyStr) : List PyStr :=
  if x ∈ s then s else s ++ [x]

theorem alistLookup_alistSet_self {β : Type} (l : List (PyStr × β)) (k : PyStr) (v : β) :
    alistLookup (alistSet l k v) k = some v := by
  induction l with
  | nil => simp [alistSet, alistLookup]
  | cons p rest ih =>
    obtain ⟨k0, v0⟩ := p
    by_cases h : k0 = k
    · simp [alistSet, alistLookup, h]
    · simp [alistSet, alistLookup, h, ih]

theorem alistLookup_alistSet_ne {β : Type} (l : List (PyStr × β)) (k k' : PyStr) (v : β)
    (h : k' ≠ k) : alistLookup (alistSet l k v) k' = alistLookup l k' := by
  have h' : ¬ k = k' := fun hh => h hh.symm
  induction l with
  | nil => simp [alistSet, alistLookup, h']
  | cons p rest ih =>
    obtain ⟨k0, v0⟩ := p
    by_cases h0 : k0 = k
    · subst h0
      simp [alistSet, alistLookup, h']
    · simp [alistSet, alistLookup, h0, ih]

theorem alistLookup_none_forall {β : Type} (l : List (PyStr × β)) (k : PyStr)
    (h : alistLookup l k = none) : ∀ p ∈ l, p.1 ≠ k := by
  induction l with
  | nil => simp
  | cons p rest ih =>
    obtain ⟨k0, v0⟩ := p
    by_cases h0 : k0 = k
    · simp [alistLookup, h0] at h
    · simp only [alistLookup, h0, if_neg h0] at h
      intro q hq
      rcases List.mem_cons.mp hq with hq | hq
      · subst hq; exact h0
      · exact ih h q hq

theorem alistLookup_append_right {β : Type} (l : List (PyStr × β)) (k : PyStr) (v : β)
    (h : alistLookup l k = none) : alistLookup (l ++ [(k, v)]) k = some v := by
  induction l with
  | nil => simp [alistLookup]
  | cons p rest ih =>
    obtain ⟨k0, v0⟩ := p
    by_cases h0 : k0 = k
    · simp [alistLookup, h0] at h
    · simp only [alistLookup, h0, if_neg h0] at h ⊢
      exact ih h

theorem alistRemove_append {β : Type} (l : List (PyStr × β)) (k : PyStr) (v : β)
    (h : alistLookup l k = none) : alistRemove (l ++ [(k, v)]) k = l := by
  induction l with
  | nil => simp [alistRemove]
  | cons p rest ih =>
    obtain ⟨k0, v0⟩ := p
    by_cases h0 : k0 = k
    · simp [alistLookup, h0] at h
    · simp only [alistLookup, h0, if_neg h0] at h
      simp [alistRemove, h0, ih h]

theorem countP_key_append {β : Type} (l : List (PyStr × β)) (k : PyStr) (v : β)
    (h : alistLookup l k = none) :
    (l ++ [(k, v)]).countP (fun p => decide (p.1 = k)) = 1 := by
  have hz : l.countP (fun p => decide (p.1 = k)) = 0 := by
    rw [List.countP_eq_zero]
    intro p hp
    simpa using alistLookup_none_forall l k h p hp
  simp [List.countP_append, hz]

theorem mem_setAdd (s : List PyStr) (x k : PyStr) :
    k ∈ setAdd s x ↔ k ∈ s ∨ k = x := by
  unfold setAdd
  by_cases h : x ∈ s
  · simp only [if_pos h]
    constructor
    · exact Or.inl
    · rintro (hk | rfl)
      · exact hk
      · exact h
  · simp [if_neg h]

/-! ## Shared constants and key normalization (source lines 54-99) -/

def EW_OK : Nat := 0
def EW_ALREADY_PRESENT : Nat := 1
def EW_ALREADY_ABSENT : Nat := 2
def EW_ALREADY_PAUSED : Nat := 3
def EW_ALREADY_RESUMED : Nat := 4
def EW_ABSENT : Nat := 5

def KEY_Z85_LEN : Nat := 40

/-- `cut_pad_str(src, length)`: `src[:length]` followed by
`" " * max(0, length - len(src))`.  (The source's `pad_ch` parameter is
never used by the body, which always pads with a space; it is omitted.) -/
def cut_pad_str (src : PyStr) (length : Nat) : PyStr :=
  src.take length ++ List.replicate (length - src.length) ' '

/-! ## UTF-8 (`str.encode("utf8")` / `bytes.decode("utf8")`) -/

/-- UTF-8 encoding of one Unicode scalar value. -/
def utf8EncodeChar (c : Char) : Bytes :=
  let n := c.toNat
  if n < 0x80 then [n]
  else if n < 0x800 then [0xC0 + n / 64, 0x80 + n % 64]
  else if n < 0x10000 then [0xE0 + n / 4096, 0x80 + n / 64 % 64, 0x80 + n % 64]
  else [0xF0 + n / 262144, 0x80 + n / 4096 % 64, 0x80 + n / 64 % 64, 0x80 + n % 64]

/-- `title.encode("utf8")`. -/
def utf8Encode (s : PyStr) : Bytes := (s.map utf8EncodeChar).flatten

/-- Smallest scalar value encodable with `len` bytes (used to reject
overlong forms). -/
def minScalar (len : Nat) : Nat :=
  if len = 2 then 0x80 else if len = 3 then 0x800 else 0x10000

/-- Strict UTF-8 decoding, one byte per step: `k` is the number of
continuation bytes still expected, `acc` the partial scalar value and
`len` the length of the current sequence.  Rejects bad lead or
continuation bytes, truncated sequences, overlong forms, surrogates and
values above `0x10FFFF` — exactly the inputs on which Python's strict
`bytes.decode("utf8")` raises. -/
def utf8DecodeAux : Bytes → Nat → Nat → Nat → Option PyStr
  | [], k, _, _ => if k = 0 then some [] else none
  | b :: rest, 0, _, _ =>
    if b < 0x80 then (utf8DecodeAux rest 0 0 0).map (fun cs => Char.ofNat b :: cs)
    else if b < 0xC0 then none
    else if b < 0xE0 then utf8DecodeAux rest 1 (b - 0xC0) 2
    else if b < 0xF0 then utf8DecodeAux rest 2 (b - 0xE0) 3
    else if b < 0xF8 then utf8DecodeAux rest 3 (b - 0xF0) 4
    else none
  | b :: rest, k + 1, acc, len =>
    if 0x80 ≤ b ∧ b < 0xC0 then
      if k = 0 then
        let n := acc * 64 + (b - 0x80)
        if minScalar len ≤ n ∧ n < 0x110000 ∧ ¬ (0xD800 ≤ n ∧ n < 0xE000) then
          (utf8DecodeAux rest 0 0 0).map (fun cs => Char.ofNat n :: cs)
        else none
      else utf8DecodeAux rest k (acc * 64 + (b - 0x80)) len
    else none

/-- `bs.decode("utf8")`; `none` models the raised `UnicodeDecodeError`. -/
def utf8Decode (bs : Bytes) : Option PyStr := utf8DecodeAux bs 0 0 0

theorem utf8Decode_encodeChar_append (c : Char) (rest : Bytes) :
    utf8Decode (utf8EncodeChar c ++ rest) = (utf8Decode rest).map (fun cs => c :: cs) := by
  have hvalid : c.toNat < 0xD800 ∨ (0xDFFF < c.toNat ∧ c.toNat < 0x110000) := c.valid
  have hofn : Char.ofNat c.toNat = c := Char.ofNat_toNat c
  unfold utf8Decode
  by_cases h1 : c.toNat < 0x80
  · have he : utf8EncodeChar c = [c.toNat] := by
      simp [utf8EncodeChar, h1]
    rw [he]
    show utf8DecodeAux (c.toNat :: rest) 0 0 0 = _
    rw [utf8DecodeAux]
    rw [if_pos h1, hofn]
  · by_cases h2 : c.toNat < 0x800
    · have he : utf8EncodeChar c = [0xC0 + c.toNat / 64, 0x80 + c.toNat % 64] := by
        simp [utf8EncodeChar, h1, h2]
      rw [he]
      show utf8DecodeAux ((0xC0 + c.toNat / 64) :: (0x80 + c.toNat % 64) :: rest) 0 0 0 = _
      rw [utf8DecodeAux]
      rw [if_neg (by omega), if_neg (by omega), if_pos (by omega)]
      rw [utf8DecodeAux]
      rw [if_pos (by omega), if_pos rfl]
      have hv : (0xC0 + c.toNat / 64 - 0xC0) * 64 + (0x80 + c.toNat % 64 - 0x80) = c.toNat := by
        omega
      simp only [hv]
      rw [if_pos (by simp [minScalar]; omega), hofn]
    · by_cases h3 : c.toNat < 0x10000
      · have he : utf8EncodeChar c =
            [0xE0 + c.toNat / 4096, 0x80 + c.toNat / 64 % 64, 0x80 + c.toNat % 64] := by
          simp [utf8EncodeChar, h1, h2, h3]
        rw [he]
        show utf8DecodeAux ((0xE0 + c.toNat / 4096) :: (0x80 + c.toNat / 64 % 64)
          :: (0x80 + c.toNat % 64) :: rest) 0 0 0 = _
        rw [utf8DecodeAux]
        rw [if_neg (by omega), if_neg (by omega), if_neg (by omega), if_pos (by omega)]
        rw [utf8DecodeAux]
        rw [if_pos (by omega), if_neg (by omega)]
        rw [utf8DecodeAux]
        rw [if_pos (by omega), if_pos rfl]
        have hv : ((0xE0 + c.toNat / 4096 - 0xE0) * 64 + (0x80 + c.toNat / 64 % 64 - 0x80)) * 64
            + (0x80 + c.toNat % 64 - 0x80) = c.toNat := by omega
        simp only [hv]
        rw [if_pos (by simp [minScalar]; omega), hofn]
      · have h4 : c.toNat < 0x110000 := by omega
        have he : utf8EncodeChar c = [0xF0 + c.toNat / 262144, 0x80 + c.toNat / 4096 % 64,
            0x80 + c.toNat / 64 % 64, 0x80 + c.toNat % 64] := by
          simp [utf8EncodeChar, h1, h2, h3]
        rw [he]
        show utf8DecodeAux ((0xF0 + c.toNat / 262144) :: (0x80 + c.toNat / 4096 % 64)
          :: (0x80 + c.toNat / 64 % 64) :: (0x80 + c.toNat % 64) :: rest) 0 0 0 = _
        rw [utf8DecodeAux]
        rw [if_neg (by omega), if_neg (by omega), if_neg (by omega), if_neg (by omega),
          if_pos (by omega)]
        rw [utf8DecodeAux]
        rw [if_pos (by omega), if_neg (by omega)]
        rw [utf8DecodeAux]
        rw [if_pos (by omega), if_neg (by omega)]
        rw [utf8DecodeAux]
        rw [if_pos (by omega), if_pos rfl]
        have hv : (((0xF0 + c.toNat / 262144 - 0xF0) * 64
            + (0x80 + c.toNat / 4096 % 64 - 0x80)) * 64
            + (0x80 + c.toNat / 64 % 64 - 0x80)) * 64 + (0x80 + c.toNat % 64 - 0x80)
            = c.toNat := by omega
        simp only [hv]
        rw [if_pos (by simp [minScalar]; omega), hofn]

theorem utf8Decode_utf8Encode (s : PyStr) : utf8Decode (utf8Encode s) = some s := by
  induction s with
  | nil => rfl
  | cons c cs ih =>
    have he : utf8Encode (c :: cs) = utf8EncodeChar c ++ utf8Encode cs := by
      simp [utf8Encode]
    rw [he, utf8Decode_encodeChar_append, ih]
    rfl

/-! ## Little-endian integers (`int.to_bytes` / `int.from_bytes`) -/

/-- `n.to_bytes(len, byteorder="little")` (callers guarantee `n < 256 ^ len`). -/
def int_to_le_bytes : Nat → Nat → Bytes
  | _, 0 => []
  | n, len + 1 => n % 256 :: int_to_le_bytes (n / 256) len

/-- `int.from_bytes(bs, byteorder="little")`. -/
def int_from_le_bytes : Bytes → Nat
  | [] => 0
  | b :: rest => b + 256 * int_from_le_bytes rest

theorem length_int_to_le_bytes (n len : Nat) : (int_to_le_bytes n len).length = len := by
  induction len generalizing n with
  | zero => rfl
  | succ len ih => simp [int_to_le_bytes, ih]

theorem int_from_le_bytes_int_to_le_bytes (len n : Nat) (h : n < 256 ^ len) :
    int_from_le_bytes (int_to_le_bytes n len) = n := by
  induction len generalizing n with
  | zero => simp at h; simp [h, int_to_le_bytes, int_from_le_bytes]
  | succ len ih =>
    have hdiv : n / 256 < 256 ^ len := by
      apply Nat.div_lt_of_lt_mul
      calc n < 256 ^ (len + 1) := h
        _ = 256 * 256 ^ len := by ring
    simp only [int_to_le_bytes, int_from_le_bytes, ih _ hdiv]
    omega

/-! ## Z85 encoding (`zmq.utils.z85.encode`) -/

def z85Chars : PyStr :=
  "0123456789abcdefghijklmnopqrstuvwxyzABCDEFGHIJKLMNOPQRSTUVWXYZ.-:+=^!/*?&<>()[]\x7b\x7d@%$#".toList

/-- Five Z85 digits of one big-endian 4-byte group. -/
def z85EncodeChunk (n : Nat) : PyStr :=
  [z85Chars.getD (n / 85 ^ 4 % 85) '0',
   z85Chars.getD (n / 85 ^ 3 % 85) '0',
   z85Chars.getD (n / 85 ^ 2 % 85) '0',
   z85Chars.getD (n / 85 % 85) '0',
   z85Chars.getD (n % 85) '0']

/-- `z85.encode(key)` as the string it decodes to in ASCII; `none`
models the exception raised when the length is not a multiple of 4. -/
def z85Encode : Bytes → Option PyStr
  | [] => some []
  | b0 :: b1 :: b2 :: b3 :: rest =>
    (z85Encode rest).map
      (fun s => z85EncodeChunk (b0 * 16777216 + b1 * 65536 + b2 * 256 + b3) ++ s)
  | _ => none

/-- ASCII bytes of a string all of whose characters are ASCII
(`s.encode("ascii")` on such a string). -/
def strBytes (s : PyStr) : Bytes := s.map Char.toNat

def bytesOfStr (s : String) : Bytes := strBytes s.toList

/-! ## Etale (source lines 102-108) -/

structure Etale where
  parts : List Bytes
  t_out : Int
  t_in : Int
  paused : Bool
deriving DecidableEq

/-- `Etale.__init__(self, parts=[], t_out=-1, t_in=-1, paused=False)`:
note that the body assigns `self.paused = False`, ignoring the `paused`
argument. -/
def etaleInit (parts : List Bytes) (t_out : Int) (t_in : Int) (paused : Bool) : Etale :=
  { parts := parts, t_out := t_out, t_in := t_in, paused := false }

/-! ## Ehypha (source lines 111-238) -/

inductive SockAction where
  | disconnect (connpoint : PyStr)
  | connect (connpoint : PyStr)
deriving DecidableEq

/-- `Ehypha.set_connpoint` (lines 122-128): returns the new `connpoint`
together with the disconnect/connect socket calls performed; no-op when
the new value equals the current one. -/
def set_connpoint (cur : Option PyStr) (connpoint : Option PyStr) :
    Option PyStr × List SockAction :=
  if connpoint = cur then (cur, [])
  else
    (connpoint,
      (match cur with
        | some c => [SockAction.disconnect c]
        | none => []) ++
      (match connpoint with
        | some c => [SockAction.connect c]
        | none => []))

/-- `Ehypha.pause_etale` (lines 168-179); the socket unsubscribe call is
not part of the claim-relevant state. -/
def pause_etale (etales : List (PyStr × Etale)) (title : PyStr) :
    List (PyStr × Etale) × Nat :=
  match alistLookup etales title with
  | some etale =>
    if ¬ etale.paused then
      (alistSet etales title { etale with paused := true }, EW_OK)
    else (etales, EW_ALREADY_PAUSED)
  | none => (etales, EW_ABSENT)

/-- `Ehypha.resume_etale` (lines 182-193). -/
def resume_etale (etales : List (PyStr × Etale)) (title : PyStr) :
    List (PyStr × Etale) × Nat :=
  match alistLookup etales title with
  | some etale =>
    if etale.paused then
      (alistSet etales title { etale with paused := false }, EW_OK)
    else (etales, EW_ALREADY_RESUMED)
  | none => (etales, EW_ABSENT)

/-- One iteration of the receive loop of `Ehypha.update` (lines 224-238):
ingest one multipart message at local time `t`.  `Except.error ()` models
the `UnicodeDecodeError` raised by `topic[:-1].decode("utf8")`, which the
source does not catch. -/
def ehyphaIngest (etales : List (PyStr × Etale)) (t : Int) (message_parts : List Bytes) :
    Except Unit (List (PyStr × Etale)) :=
  match message_parts with
  | topic :: t_out_bytes :: data =>
    if topic.length ≥ 1 then
      match utf8Decode topic.dropLast with
      | none => Except.error ()
      | some title =>
        match alistLookup etales title with
        | some etale =>
          if ¬ etale.paused then
            if t_out_bytes.length = 8 then
              Except.ok (alistSet etales title
                { etale with
                  parts := data,
                  t_out := Int.ofNat (int_from_le_bytes t_out_bytes),
                  t_in := t })
            else Except.ok etales
          else Except.ok etales
        | none => Except.ok etales
    else Except.ok etales
  | _ => Except.ok etales

/-- The vote increment of `Ehypha.update` lines 212-215
(`connpoints_votes[cp] += 1` or `= 1`). -/
def voteBump : List (PyStr × Nat) → PyStr → List (PyStr × Nat)
  | [], cp => [(cp, 1)]
  | (k, v) :: rest, cp =>
    if k = cp then (k, v + 1) :: rest else (k, v) :: voteBump rest cp

/-- The `connpoints_votes` tally of `Ehypha.update` lines 209-215, built
over `connpoints_via_ecatals.values()` in insertion order. -/
def buildVotes (connpoints_via_ecatals : List (PyStr × (PyStr × Int)))
    (ecatal_forget_interval : Int) (t : Int) : List (PyStr × Nat) :=
  connpoints_via_ecatals.foldl
    (fun votes kv =>
      if ecatal_forget_interval < 0 ∨ t - kv.2.2 ≤ ecatal_forget_interval then
        voteBump votes kv.2.1
      else votes) []

/-- The `max_v, max_v_cp` scan of `Ehypha.update` lines 218-221. -/
def selectMax (votes : List (PyStr × Nat)) : PyStr :=
  (votes.foldl (fun acc cv => if cv.2 > acc.1 then (cv.2, cv.1) else acc) (0, ([] : PyStr))).2

/-- The endpoint-selection part of `Ehypha.update` (lines 206-222):
resulting `connpoint` and socket calls. -/
def ehyphaUpdateConnpoint (connpoints_via_ecatals : List (PyStr × (PyStr × Int)))
    (ecatal_forget_interval : Int) (cur : Option PyStr) (t : Int) :
    Option PyStr × List SockAction :=
  let votes := buildVotes connpoints_via_ecatals ecatal_forget_interval t
  if votes.length > 0 then set_connpoint cur (some (selectMax votes))
  else (cur, [])

/-! ## Efunguz (source lines 241-416) -/

/-- Claim-relevant state of an `Ehypha` (sockets omitted). -/
structure Ehypha where
  ecatal_forget_interval : Int
  connpoint : Option PyStr
  connpoints_via_ecatals : List (PyStr × (PyStr × Int))
  etales : List (PyStr × Etale)
deriving DecidableEq

/-- `Ehypha.__init__` (lines 131-144): store the forget interval, start
with `connpoint = None` then call `set_connpoint(connpoint)`, empty
`connpoints_via_ecatals` and `etales`. -/
def ehyphaInit (ecatal_forget_interval : Int) (connpoint : Option PyStr) : Ehypha :=
  { ecatal_forget_interval := ecatal_forget_interval,
    connpoint := (set_connpoint none connpoint).1,
    connpoints_via_ecatals := [],
    etales := [] }

/-- `Efunguz.add_ehypha` (lines 289-300) acting on the `ehyphae` dict;
returns `((ehypha, status), new_ehyphae)`.  The subscriptions added on
the `ecatals_from` sockets are not claim-relevant state. -/
def add_ehypha (ehyphae : List (PyStr × Ehypha)) (self_ecatal_forget_interval : Int)
    (that_publickey : PyStr) (connpoint : Option PyStr)
    (ecatal_forget_interval : Option Int) :
    (Ehypha × Nat) × List (PyStr × Ehypha) :=
  let serverkey := cut_pad_str that_publickey KEY_Z85_LEN
  match alistLookup ehyphae serverkey with
  | none =>
    let f := ecatal_forget_interval.getD self_ecatal_forget_interval
    let ehypha := ehyphaInit f connpoint
    ((ehypha, EW_OK), ehyphae ++ [(serverkey, ehypha)])
  | some ehypha => ((ehypha, EW_ALREADY_PRESENT), ehyphae)

/-- `Efunguz.del_ehypha` (lines 303-311) acting on the `ehyphae` dict. -/
def del_ehypha (ehyphae : List (PyStr × Ehypha)) (that_publickey : PyStr) :
    Nat × List (PyStr × Ehypha) :=
  let serverkey := cut_pad_str that_publickey KEY_Z85_LEN
  match alistLookup ehyphae serverkey with
  | some _ => (EW_OK, alistRemove ehyphae serverkey)
  | none => (EW_ALREADY_ABSENT, ehyphae)

def ROUTING_ID_PUBSUB : Bytes := bytesOfStr "pubsub"

/-- The ZAP request handling of `Efunguz.update` (lines 381-391) for one
7-frame request; returns the reply frames, or `none` for the exception
`z85.encode` raises when the key length is not a multiple of 4. -/
def zapProcess (whitelist_publickeys : List PyStr)
    (version sequence domain address identity mechanism key : Bytes) :
    Option (List Bytes) :=
  match z85Encode key with
  | none => none
  | some key_s =>
    some ([version, sequence] ++
      (if identity = ROUTING_ID_PUBSUB ∧
          (whitelist_publickeys = [] ∨ key_s ∈ whitelist_publickeys) then
        [bytesOfStr "200", bytesOfStr "OK", strBytes key_s, []]
      else
        [bytesOfStr "400", bytesOfStr "FAILED", [], []]))

/-- The multipart message sent by `Efunguz.emit_etale` (lines 367-371)
when `time_musec()` returns `t_out`. -/
def emit_etale_message (title : PyStr) (parts : List Bytes) (t_out : Nat) : List Bytes :=
  (utf8Encode title ++ [0]) :: int_to_le_bytes t_out 8 :: parts

/-! ## Ecataloguz (source lines 419-551) -/

/-- `beacon_recs` values: `(connpoint, last beacon time, comment)`. -/
abbrev BeaconRec := PyStr × Int × PyStr

/-- The publication pass of `Ecataloguz.run` (lines 544-551): mask
records whose beacon is older than `deactivate_interval`, then publish
`[key, connpoint]` for every record whose connpoint is non-empty.
Returns the updated `beacon_recs` and the published frame pairs in
order. -/
def ecatalPublishTick (beacon_recs : List (PyStr × BeaconRec))
    (deactivate_interval : Int) (t : Int) :
    List (PyStr × BeaconRec) × List (PyStr × PyStr) :=
  match beacon_recs with
  | [] => ([], [])
  | (key, (connpoint, t_last_beac, comment)) :: rest =>
    let connpoint :=
      if deactivate_interval ≥ 0 ∧ t - t_last_beac > deactivate_interval then []
      else connpoint
    let tail := ecatalPublishTick rest deactivate_interval t
    ((key, (connpoint, t_last_beac, comment)) :: tail.1,
     if connpoint ≠ [] then (key, connpoint) :: tail.2 else tail.2)

/-- The beacon receipt of `Ecataloguz.run` (lines 532-542), given the
already-decoded sender key, the constructed connpoint and the current
time: a known key keeps its comment, an unknown key gets `""`. -/
def beaconReceive (beacon_recs : List (PyStr × BeaconRec))
    (key : PyStr) (connpoint : PyStr) (t : Int) : List (PyStr × BeaconRec) :=
  let comment :=
    match alistLookup beacon_recs key with
    | some (_, _, comment) => comment
    | none => []
  alistSet beacon_recs key (connpoint, t, comment)

/-- Python `file.readlines()` helper: split keeping each newline; a final
line with no trailing newline is returned as-is. -/
def readlinesAux : List Char → List Char → List (List Char)
  | [], acc => if acc = [] then [] else [acc.reverse]
  | c :: rest, acc =>
    if c = '\n' then (acc.reverse ++ ['\n']) :: readlinesAux rest []
    else readlinesAux rest (c :: acc)

/-- Python `open(filepath).readlines()` on a file with the given
contents. -/
def readlines (content : List Char) : List (List Char) := readlinesAux content []

/-- The loop body of `Ecataloguz.read_pubsub_whitelist_publickeys`
(lines 479-483) for one line. -/
def pubsubWhitelistLine (wl : List PyStr) (line : PyStr) : List PyStr :=
  let line := line.dropLast
  if line.length ≥ KEY_Z85_LEN then setAdd wl (line.take KEY_Z85_LEN) else wl

/-- `Ecataloguz.read_pubsub_whitelist_publickeys` (lines 477-483) on the
file contents. -/
def read_pubsub_whitelist_publickeys (wl : List PyStr) (content : List Char) :
    List PyStr :=
  (readlines content).foldl pubsubWhitelistLine wl

/-- The loop body of
`Ecataloguz.read_beacon_whitelist_publickeys_with_comments`
(lines 468-474) for one line, acting on the whitelist and `beacon_recs`. -/
def beaconWhitelistLine (state : List PyStr × List (PyStr × BeaconRec)) (line : PyStr) :
    List PyStr × List (PyStr × BeaconRec) :=
  let line := line.dropLast
  if line.length ≥ KEY_Z85_LEN then
    let key := line.take KEY_Z85_LEN
    let comment :=
      if line.length ≥ KEY_Z85_LEN + 2 then line.drop (KEY_Z85_LEN + 1) else []
    (setAdd state.1 key, alistSet state.2 key (([] : PyStr), (-1 : Int), comment))
  else state

/-- `Ecataloguz.read_beacon_whitelist_publickeys_with_comments`
(lines 466-474) on the file contents. -/
def read_beacon_whitelist_publickeys_with_comments
    (wl : List PyStr) (beacon_recs : List (PyStr × BeaconRec)) (content : List Char) :
    List PyStr × List (PyStr × BeaconRec) :=
  (readlines content).foldl beaconWhitelistLine (wl, beacon_recs)

/-- Modelled from the spec wording of the whitelist file format, for
comparison with the source readers: "the first 40 characters of the line
(after trimming the trailing newline)" — the newline is trimmed only
when present. -/
def trimNewline (line : PyStr) : PyStr :=
  if line.getLast? = some '\n' then line.dropLast else line

/-! ## Helper lemmas -/

theorem cut_pad_str_length (s : PyStr) (n : Nat) : (cut_pad_str s n).length = n := by
  simp only [cut_pad_str, List.length_append, List.length_take, List.length_replicate]
  omega

theorem cut_pad_str_of_length_le (s : PyStr) (n : Nat) (h : s.length ≤ n) :
    cut_pad_str s n = s ++ List.replicate (n - s.length) ' ' := by
  simp [cut_pad_str, List.take_of_length_le h]

theorem cut_pad_str_of_length_eq (s : PyStr) (n : Nat) (h : s.length = n) :
    cut_pad_str s n = s := by
  rw [cut_pad_str_of_length_le s n (le_of_eq h), h]
  simp

/-! ## Claim theorems -/

/-- C1: the claim states that a multipart message whose topic minus its
final byte is not valid UTF-8 is silently dropped with no exception.  The
source instead raises an uncaught `UnicodeDecodeError` at
`title = topic[:-1].decode("utf8")` (`Ehypha.update`, line 230; unlike the
analogous catalogue path in `Efunguz.update`, lines 405-413, nothing
catches it): on the concrete two-frame message with topic `b"\xc3\x28\x00"`
and a well-formed 8-byte timestamp, ingestion reaches the exception path
for every etales table and every local time. -/
theorem c1_nonutf8_topic_raises (etales : List (PyStr × Etale)) (t : Int) :
    ehyphaIngest etales t [[0xC3, 0x28, 0x00], [0, 0, 0, 0, 0, 0, 0, 0]] =
      Except.error () := rfl

/-- C2: one 7-frame ZAP request produces the pass reply
`[version, sequence, "200", "OK", z85(key), ""]` iff the identity frame is
`b"pubsub"` and the whitelist is empty or contains `z85(key)`, and
produces `[version, sequence, "400", "FAILED", "", ""]` otherwise
(`key_s` being the Z85 encoding of the CURVE credential frame). -/
theorem c2_zap_reply (wl : List PyStr)
    (version sequence domain address identity mechanism key : Bytes) (key_s : PyStr)
    (hk : z85Encode key = some key_s) :
    (zapProcess wl version sequence domain address identity mechanism key =
        some [version, sequence, bytesOfStr "200", bytesOfStr "OK", strBytes key_s, []]
      ↔ (identity = ROUTING_ID_PUBSUB ∧ (wl = [] ∨ key_s ∈ wl))) ∧
    (¬ (identity = ROUTING_ID_PUBSUB ∧ (wl = [] ∨ key_s ∈ wl)) →
      zapProcess wl version sequence domain address identity mechanism key =
        some [version, sequence, bytesOfStr "400", bytesOfStr "FAILED", [], []]) := by
  have hzap : zapProcess wl version sequence domain address identity mechanism key =
      some ([version, sequence] ++
        (if identity = ROUTING_ID_PUBSUB ∧ (wl = [] ∨ key_s ∈ wl) then
          [bytesOfStr "200", bytesOfStr "OK", strBytes key_s, []]
        else
          [bytesOfStr "400", bytesOfStr "FAILED", [], []])) := by
    unfold zapProcess
    rw [hk]
  by_cases hc : identity = ROUTING_ID_PUBSUB ∧ (wl = [] ∨ key_s ∈ wl)
  · rw [hzap, if_pos hc]
    constructor
    · constructor
      · intro _; exact hc
      · intro _; rfl
    · intro hn; exact absurd hc hn
  · rw [hzap, if_neg hc]
    constructor
    · constructor
      · intro h
        exfalso
        have h' := Option.some.inj h
        have h2 := List.append_inj_right h' (by rfl)
        simp [bytesOfStr, strBytes] at h2
      · intro h; exact absurd h hc
    · intro _; rfl

/-- C2 witness: concrete all-zero 32-byte key, empty whitelist, identity
`b"pubsub"`. -/
theorem c2_zap_reply_witness :
    z85Encode (List.replicate 32 0) = some (List.replicate 40 '0') ∧
    zapProcess [] [1] [2] [] [] ROUTING_ID_PUBSUB [] (List.replicate 32 0) =
      some [[1], [2], bytesOfStr "200", bytesOfStr "OK",
        strBytes (List.replicate 40 '0'), []] := by
  have h := c2_zap_reply [] [1] [2] [] [] ROUTING_ID_PUBSUB [] (List.replicate 32 0)
    (List.replicate 40 '0') (by decide)
  exact ⟨by decide, h.1.mpr ⟨rfl, Or.inl rfl⟩⟩

/-- C8: `cut_pad_str(s, 40)` has length exactly 40 (truncating when
longer, right-padding with spaces when shorter, unchanged when exactly
40), and is idempotent. -/
theorem c8_cut_pad_str_normalizes (s : PyStr) :
    (cut_pad_str s KEY_Z85_LEN).length = KEY_Z85_LEN ∧
    cut_pad_str (cut_pad_str s KEY_Z85_LEN) KEY_Z85_LEN = cut_pad_str s KEY_Z85_LEN ∧
    (s.length = KEY_Z85_LEN → cut_pad_str s KEY_Z85_LEN = s) ∧
    (KEY_Z85_LEN ≤ s.length → cut_pad_str s KEY_Z85_LEN = s.take KEY_Z85_LEN) ∧
    (s.length ≤ KEY_Z85_LEN →
      cut_pad_str s KEY_Z85_LEN = s ++ List.replicate (KEY_Z85_LEN - s.length) ' ') := by
  refine ⟨cut_pad_str_length s KEY_Z85_LEN,
    cut_pad_str_of_length_eq _ _ (cut_pad_str_length s KEY_Z85_LEN),
    cut_pad_str_of_length_eq s KEY_Z85_LEN,
    ?_, cut_pad_str_of_length_le s KEY_Z85_LEN⟩
  intro h
  simp [cut_pad_str, Nat.sub_eq_zero_of_le h]

/-- C8 witness: a 3-character string is padded to length 40 with 37
spaces. -/
theorem c8_cut_pad_str_normalizes_witness :
    (cut_pad_str "abc".toList KEY_Z85_LEN).length = KEY_Z85_LEN ∧
    cut_pad_str "abc".toList KEY_Z85_LEN = "abc".toList ++ List.replicate 37 ' ' := by
  have h := c8_cut_pad_str_normalizes "abc".toList
  refine ⟨h.1, ?_⟩
  rw [h.2.2.2.2 (by decide)]
  rfl

/-- C10: `Etale.__init__` assigns `self.paused = False` unconditionally,
so a freshly constructed etale has `paused == False` for every
combination of constructor arguments, including `paused=True`. -/
theorem c10_etale_paused_argument_ignored (parts : List Bytes) (t_out t_in : Int)
    (paused : Bool) : (etaleInit parts t_out t_in paused).paused = false := rfl

theorem ehyphaIngest_emit (etales : List (PyStr × Etale)) (title : PyStr)
    (parts : List Bytes) (t_out : Nat) (t : Int) (etale : Etale)
    (hfound : alistLookup etales title = some etale)
    (hpaused : etale.paused = false) (ht : t_out < 2 ^ 64) :
    ehyphaIngest etales t (emit_etale_message title parts t_out) =
      Except.ok (alistSet etales title
        { etale with parts := parts, t_out := Int.ofNat t_out, t_in := t }) := by
  have h256 : t_out < 256 ^ 8 := by
    have hp : (256 : Nat) ^ 8 = 2 ^ 64 := by norm_num
    omega
  unfold emit_etale_message
  rw [ehyphaIngest]
  rw [if_pos (by simp)]
  rw [List.dropLast_concat, utf8Decode_utf8Encode]
  simp only [hfound, hpaused, length_int_to_le_bytes, not_false_eq_true, if_true,
    Bool.false_eq_true, if_pos]
  rw [int_from_le_bytes_int_to_le_bytes 8 t_out h256]

/-- C3: the message framed by `emit_etale` at sender time `t_out`, when
ingested by an `Ehypha` holding a non-paused etale under the same title,
leaves that etale with `parts == P`, `t_out` equal to the sender
timestamp and `t_in` equal to the receiver's current time. -/
theorem c3_topic_framing_roundtrip (etales : List (PyStr × Etale)) (title : PyStr)
    (parts : List Bytes) (t_out : Nat) (t : Int) (etale : Etale)
    (hfound : alistLookup etales title = some etale)
    (hpaused : etale.paused = false) (ht : t_out < 2 ^ 64) :
    ∃ etales2,
      ehyphaIngest etales t (emit_etale_message title parts t_out) = Except.ok etales2 ∧
      alistLookup etales2 title =
        some { parts := parts, t_out := Int.ofNat t_out, t_in := t, paused := false } := by
  refine ⟨_, ehyphaIngest_emit etales title parts t_out t etale hfound hpaused ht, ?_⟩
  rw [alistLookup_alistSet_self]
  simp [hpaused]

/-- C3 witness: a one-etale table under title `"x"`, payload `[b"h"]`,
sender time 42, receiver time 100. -/
theorem c3_topic_framing_roundtrip_witness :
    alistLookup [(['x'], Etale.mk [] (-1) (-1) false)] ['x'] =
      some (Etale.mk [] (-1) (-1) false) ∧
    (∃ etales2,
      ehyphaIngest [(['x'], Etale.mk [] (-1) (-1) false)] 100
          (emit_etale_message ['x'] [[104]] 42) = Except.ok etales2 ∧
      alistLookup etales2 ['x'] = some (Etale.mk [[104]] (Int.ofNat 42) 100 false)) := by
  exact ⟨rfl, c3_topic_framing_roundtrip [(['x'], Etale.mk [] (-1) (-1) false)] ['x']
    [[104]] 42 100 (Etale.mk [] (-1) (-1) false) rfl rfl (by norm_num)⟩

theorem ehyphaIngest_preserves_paused (etales : List (PyStr × Etale)) (T : PyStr)
    (eP : Etale) (t : Int) (msg : List Bytes) (etales2 : List (PyStr × Etale))
    (hT : alistLookup etales T = some eP) (hp : eP.paused = true)
    (hok : ehyphaIngest etales t msg = Except.ok etales2) :
    alistLookup etales2 T = some eP := by
  match msg with
  | [] =>
    have he : etales = etales2 := Except.ok.inj hok
    rw [← he]; exact hT
  | [topic] =>
    have he : etales = etales2 := Except.ok.inj hok
    rw [← he]; exact hT
  | topic :: t_out_bytes :: data =>
    rw [ehyphaIngest] at hok
    split at hok
    · split at hok
      · exact absurd hok (by simp)
      · rename_i title hdec
        split at hok
        · rename_i etale hfind
          split at hok
          · rename_i hep
            split at hok
            · have he := Except.ok.inj hok
              rw [← he]
              have hne : T ≠ title := by
                intro heq
                rw [heq] at hT
                have he2 : eP = etale := Option.some.inj (hT.symm.trans hfind)
                rw [he2] at hp
                exact hep hp
              rw [alistLookup_alistSet_ne _ _ _ _ hne]
              exact hT
            · have he := Except.ok.inj hok
              rw [← he]; exact hT
          · have he := Except.ok.inj hok
            rw [← he]; exact hT
        · have he := Except.ok.inj hok
          rw [← he]; exact hT
    · have he := Except.ok.inj hok
      rw [← he]; exact hT

/-- C5: once `pause_etale(T)` has returned (and `resume_etale(T)` has
not), the etale under `T` has its pause flag set and no ingested message
changes its `parts`, `t_out` or `t_in`; after `resume_etale(T)`, the next
successfully decoded message for `T` updates all three fields. -/
theorem c5_pause_semantics (etales : List (PyStr × Etale)) (T : PyStr) (e : Etale)
    (t t2 : Int) (parts : List Bytes) (t_out : Nat)
    (hfound : alistLookup etales T = some e) (ht : t_out < 2 ^ 64) :
    (alistLookup (pause_etale etales T).1 T = some { e with paused := true }) ∧
    (∀ msg etales2,
      ehyphaIngest (pause_etale etales T).1 t msg = Except.ok etales2 →
      alistLookup etales2 T = some { e with paused := true }) ∧
    (∃ etales3,
      ehyphaIngest (resume_etale (pause_etale etales T).1 T).1 t2
          (emit_etale_message T parts t_out) = Except.ok etales3 ∧
      alistLookup etales3 T =
        some { parts := parts, t_out := Int.ofNat t_out, t_in := t2,
               paused := false }) := by
  have hps : pause_etale etales T =
      if ¬ e.paused then (alistSet etales T { e with paused := true }, EW_OK)
      else (etales, EW_ALREADY_PAUSED) := by
    unfold pause_etale
    rw [hfound]
  have hpause : alistLookup (pause_etale etales T).1 T = some { e with paused := true } := by
    rw [hps]
    by_cases hp : e.paused
    · rw [if_neg (by simp [hp])]
      show alistLookup etales T = _
      rw [hfound]
      cases e
      simp_all
    · rw [if_pos (by simp [hp])]
      exact alistLookup_alistSet_self _ _ _
  have hrs : resume_etale (pause_etale etales T).1 T =
      (alistSet (pause_etale etales T).1 T { e with paused := false }, EW_OK) := by
    unfold resume_etale
    rw [hpause]
    rfl
  refine ⟨hpause, ?_, ?_⟩
  · intro msg etales2 hok
    exact ehyphaIngest_preserves_paused _ T _ t msg etales2 hpause rfl hok
  · have hresume :
        alistLookup (resume_etale (pause_etale etales T).1 T).1 T =
          some { e with paused := false } := by
      rw [hrs]
      exact alistLookup_alistSet_self _ _ _
    refine ⟨_, ehyphaIngest_emit _ T parts t_out t2 _ hresume rfl ht, ?_⟩
    rw [alistLookup_alistSet_self]

/-- C5 witness: pause then resume on a concrete one-etale table; the
paused table survives a well-formed message for `T` unchanged, and after
resume the same message updates all three fields. -/
theorem c5_pause_semantics_witness :
    alistLookup [(['x'], Etale.mk [[1]] 5 6 false)] ['x'] =
      some (Etale.mk [[1]] 5 6 false) ∧
    alistLookup (pause_etale [(['x'], Etale.mk [[1]] 5 6 false)] ['x']).1 ['x'] =
      some (Etale.mk [[1]] 5 6 true) ∧
    (∃ etales3,
      ehyphaIngest
          (resume_etale (pause_etale [(['x'], Etale.mk [[1]] 5 6 false)] ['x']).1 ['x']).1
          20 (emit_etale_message ['x'] [[7]] 3) = Except.ok etales3 ∧
      alistLookup etales3 ['x'] = some (Etale.mk [[7]] (Int.ofNat 3) 20 false)) := by
  have h := c5_pause_semantics [(['x'], Etale.mk [[1]] 5 6 false)] ['x']
    (Etale.mk [[1]] 5 6 false) 10 20 [[7]] 3 rfl (by norm_num)
  exact ⟨rfl, h.1, h.2.2⟩

/-- C7: starting from an `ehyphae` table without `normalize(k)`, calling
`add_ehypha(k)` twice returns the same ehypha with statuses `OK` then
`ALREADY_PRESENT`, leaves exactly one entry under the normalized key and
does not change the table on the second call; `del_ehypha(k)` twice then
returns `OK` (restoring the initial table) then `ALREADY_ABSENT`, the
second call leaving the table unchanged. -/
theorem c7_add_del_ehypha_idempotent (ehyphae : List (PyStr × Ehypha)) (defF : Int)
    (k : PyStr) (connpoint : Option PyStr) (fi : Option Int)
    (habs : alistLookup ehyphae (cut_pad_str k KEY_Z85_LEN) = none) :
    (add_ehypha ehyphae defF k connpoint fi).1.2 = EW_OK ∧
    (add_ehypha (add_ehypha ehyphae defF k connpoint fi).2 defF k connpoint fi).1.2 =
      EW_ALREADY_PRESENT ∧
    (add_ehypha (add_ehypha ehyphae defF k connpoint fi).2 defF k connpoint fi).1.1 =
      (add_ehypha ehyphae defF k connpoint fi).1.1 ∧
    (add_ehypha (add_ehypha ehyphae defF k connpoint fi).2 defF k connpoint fi).2 =
      (add_ehypha ehyphae defF k connpoint fi).2 ∧
    ((add_ehypha ehyphae defF k connpoint fi).2.countP
        (fun p => decide (p.1 = cut_pad_str k KEY_Z85_LEN)) = 1) ∧
    (del_ehypha (add_ehypha ehyphae defF k connpoint fi).2 k).1 = EW_OK ∧
    (del_ehypha (add_ehypha ehyphae defF k connpoint fi).2 k).2 = ehyphae ∧
    (del_ehypha (del_ehypha (add_ehypha ehyphae defF k connpoint fi).2 k).2 k).1 =
      EW_ALREADY_ABSENT ∧
    (del_ehypha (del_ehypha (add_ehypha ehyphae defF k connpoint fi).2 k).2 k).2 =
      (del_ehypha (add_ehypha ehyphae defF k connpoint fi).2 k).2 := by
  have h1 : add_ehypha ehyphae defF k connpoint fi =
      ((ehyphaInit (fi.getD defF) connpoint, EW_OK),
        ehyphae ++ [(cut_pad_str k KEY_Z85_LEN, ehyphaInit (fi.getD defF) connpoint)]) := by
    simp only [add_ehypha, habs]
  have hlook : alistLookup
      (ehyphae ++ [(cut_pad_str k KEY_Z85_LEN, ehyphaInit (fi.getD defF) connpoint)])
      (cut_pad_str k KEY_Z85_LEN) = some (ehyphaInit (fi.getD defF) connpoint) :=
    alistLookup_append_right _ _ _ habs
  have h2 : add_ehypha (add_ehypha ehyphae defF k connpoint fi).2 defF k connpoint fi =
      ((ehyphaInit (fi.getD defF) connpoint, EW_ALREADY_PRESENT),
        (add_ehypha ehyphae defF k connpoint fi).2) := by
    rw [h1]
    simp only [add_ehypha, hlook]
  have hrem : alistRemove
      (ehyphae ++ [(cut_pad_str k KEY_Z85_LEN, ehyphaInit (fi.getD defF) connpoint)])
      (cut_pad_str k KEY_Z85_LEN) = ehyphae :=
    alistRemove_append _ _ _ habs
  have hd1 : del_ehypha (add_ehypha ehyphae defF k connpoint fi).2 k = (EW_OK, ehyphae) := by
    rw [h1]
    simp only [del_ehypha, hlook, hrem]
  have hd2 : del_ehypha ehyphae k = (EW_ALREADY_ABSENT, ehyphae) := by
    simp only [del_ehypha, habs]
  refine ⟨by rw [h1], by rw [h2, h1], by rw [h2, h1], by rw [h2], ?_, by rw [hd1],
    by rw [hd1], by rw [hd1]; rw [hd2], by rw [hd1]; rw [hd2]⟩
  rw [h1]
  exact countP_key_append _ _ _ habs

/-- C7 witness: the empty table and the empty key (normalized to 40
spaces). -/
theorem c7_add_del_ehypha_idempotent_witness :
    alistLookup ([] : List (PyStr × Ehypha)) (cut_pad_str [] KEY_Z85_LEN) = none ∧
    (add_ehypha [] 0 [] none none).1.2 = EW_OK ∧
    (add_ehypha (add_ehypha [] 0 [] none none).2 0 [] none none).1.2 =
      EW_ALREADY_PRESENT ∧
    (del_ehypha (add_ehypha [] 0 [] none none).2 []).1 = EW_OK ∧
    (del_ehypha (del_ehypha (add_ehypha [] 0 [] none none).2 []).2 []).1 =
      EW_ALREADY_ABSENT := by
  have h := c7_add_del_ehypha_idempotent [] 0 [] none none rfl
  exact ⟨rfl, h.1, h.2.1, h.2.2.2.2.2.1, h.2.2.2.2.2.2.2.1⟩

theorem ecatalPublishTick_fst (recs : List (PyStr × BeaconRec)) (D t : Int) :
    (ecatalPublishTick recs D t).1 = recs.map (fun r =>
      (r.1, (if D ≥ 0 ∧ t - r.2.2.1 > D then ([] : PyStr) else r.2.1,
        r.2.2.1, r.2.2.2))) := by
  induction recs with
  | nil => rfl
  | cons p rest ih =>
    obtain ⟨k0, cp0, tb0, cm0⟩ := p
    simp only [ecatalPublishTick, List.map_cons, ih]

theorem ecatalPublishTick_snd (recs : List (PyStr × BeaconRec)) (D t : Int) :
    (ecatalPublishTick recs D t).2 =
      ((ecatalPublishTick recs D t).1.filter (fun r => decide (r.2.1 ≠ []))).map
        (fun r => (r.1, r.2.1)) := by
  induction recs with
  | nil => rfl
  | cons p rest ih =>
    obtain ⟨k0, cp0, tb0, cm0⟩ := p
    simp only [ecatalPublishTick, List.filter_cons]
    by_cases hcp : (if D ≥ 0 ∧ t - tb0 > D then ([] : PyStr) else cp0) ≠ []
    · simp [hcp, ih]
    · simp [hcp, ih]

theorem beaconReceive_known (recs : List (PyStr × BeaconRec)) (key newcp : PyStr)
    (t2 : Int) (cp : PyStr) (tb : Int) (cm : PyStr)
    (h : alistLookup recs key = some (cp, tb, cm)) :
    alistLookup (beaconReceive recs key newcp t2) key = some (newcp, t2, cm) := by
  unfold beaconReceive
  rw [h]
  exact alistLookup_alistSet_self _ _ _

/-- C6: in a publication tick at time `t`, every record whose beacon is
older than a non-negative `deactivate_interval` gets its endpoint reset
to `""` while its beacon time and comment are preserved (the others are
kept as they are); exactly the entries whose endpoint is then non-empty
are published, in order, as `[key, endpoint]` pairs; and a beacon
received for a known key overwrites only its endpoint and timestamp,
preserving the prior comment. -/
theorem c6_catalogue_deactivation (recs : List (PyStr × BeaconRec)) (D t t2 : Int)
    (key cp newcp : PyStr) (tb : Int) (cm : PyStr) :
    ((ecatalPublishTick recs D t).1 = recs.map (fun r =>
      (r.1, (if D ≥ 0 ∧ t - r.2.2.1 > D then ([] : PyStr) else r.2.1,
        r.2.2.1, r.2.2.2)))) ∧
    ((ecatalPublishTick recs D t).2 =
      ((ecatalPublishTick recs D t).1.filter (fun r => decide (r.2.1 ≠ []))).map
        (fun r => (r.1, r.2.1))) ∧
    (alistLookup recs key = some (cp, tb, cm) →
      alistLookup (beaconReceive recs key newcp t2) key = some (newcp, t2, cm)) :=
  ⟨ecatalPublishTick_fst recs D t, ecatalPublishTick_snd recs D t,
    fun h => beaconReceive_known recs key newcp t2 cp tb cm h⟩

/-- C6 witness: one record beaconed at time 0, deactivate interval 10,
tick at time 100 (stale: masked and not published); a fresh beacon for
the same key at time 50 keeps the comment. -/
theorem c6_catalogue_deactivation_witness :
    alistLookup [(['k'], ((['c'], 0, ['m']) : BeaconRec))] ['k'] = some (['c'], 0, ['m']) ∧
    (ecatalPublishTick [(['k'], ((['c'], 0, ['m']) : BeaconRec))] 10 100).1 =
      [(['k'], (([] : PyStr), 0, ['m']))] ∧
    (ecatalPublishTick [(['k'], ((['c'], 0, ['m']) : BeaconRec))] 10 100).2 = [] ∧
    alistLookup (beaconReceive [(['k'], ((['c'], 0, ['m']) : BeaconRec))] ['k'] ['d'] 50)
      ['k'] = some (['d'], 50, ['m']) := by
  have h := c6_catalogue_deactivation [(['k'], ((['c'], 0, ['m']) : BeaconRec))] 10 100 50
    ['k'] ['c'] ['d'] 0 ['m']
  refine ⟨rfl, ?_, ?_, h.2.2 rfl⟩
  · rw [h.1]
    decide
  · rw [h.2.1, h.1]
    decide

/-! ## Voting lemmas for C4 -/

/-- `connpoints_votes[cp]`, defaulting to 0 when absent. -/
def voteCount (votes : List (PyStr × Nat)) (cp : PyStr) : Nat :=
  (alistLookup votes cp).getD 0

theorem voteCount_voteBump (votes : List (PyStr × Nat)) (cp cp' : PyStr) :
    voteCount (voteBump votes cp) cp' =
      voteCount votes cp' + (if cp = cp' then 1 else 0) := by
  induction votes with
  | nil =>
    by_cases h : cp = cp'
    · simp [voteBump, voteCount, alistLookup, h]
    · simp [voteBump, voteCount, alistLookup, h]
  | cons p rest ih =>
    obtain ⟨k, v⟩ := p
    by_cases hk : k = cp
    · subst hk
      by_cases h' : k = cp'
      · simp [voteBump, voteCount, alistLookup, h']
      · simp [voteBump, voteCount, alistLookup, h']
    · by_cases h' : k = cp'
      · subst h'
        have hne : ¬ cp = k := fun hh => hk hh.symm
        simp [voteBump, voteCount, alistLookup, hk, hne]
      · simp only [voteBump, if_neg hk]
        simp only [voteCount, alistLookup, if_neg h'] at ih ⊢
        exact ih

theorem voteCount_foldl (l : List (PyStr × (PyStr × Int))) (forget t : Int)
    (acc : List (PyStr × Nat)) (cp : PyStr) :
    voteCount
      (l.foldl (fun votes kv =>
        if forget < 0 ∨ t - kv.2.2 ≤ forget then voteBump votes kv.2.1 else votes) acc)
      cp =
    voteCount acc cp +
      l.countP (fun kv => decide ((forget < 0 ∨ t - kv.2.2 ≤ forget) ∧ kv.2.1 = cp)) := by
  induction l generalizing acc with
  | nil => simp
  | cons kv l ih =>
    rw [List.foldl_cons, ih, List.countP_cons]
    by_cases hf : forget < 0 ∨ t - kv.2.2 ≤ forget
    · rw [if_pos hf, voteCount_voteBump]
      by_cases hcp : kv.2.1 = cp
      · have hcond : (decide ((forget < 0 ∨ t - kv.2.2 ≤ forget) ∧ kv.2.1 = cp)) = true := by
          simp only [decide_eq_true_eq]
          exact ⟨hf, hcp⟩
        rw [if_pos hcond, if_pos hcp]
        omega
      · have hcond : ¬ ((decide ((forget < 0 ∨ t - kv.2.2 ≤ forget) ∧ kv.2.1 = cp)) = true) := by
          simp only [decide_eq_true_eq]
          intro hAnd
          exact hcp hAnd.2
        rw [if_neg hcond, if_neg hcp]
        omega
    · rw [if_neg hf]
      have hcond : ¬ ((decide ((forget < 0 ∨ t - kv.2.2 ≤ forget) ∧ kv.2.1 = cp)) = true) := by
        simp only [decide_eq_true_eq]
        intro hAnd
        exact hf hAnd.1
      rw [if_neg hcond]
      omega

theorem buildVotes_voteCount (conns : List (PyStr × (PyStr × Int))) (forget t : Int)
    (cp : PyStr) :
    voteCount (buildVotes conns forget t) cp =
      conns.countP (fun kv =>
        decide ((forget < 0 ∨ t - kv.2.2 ≤ forget) ∧ kv.2.1 = cp)) := by
  unfold buildVotes
  rw [voteCount_foldl]
  simp [voteCount, alistLookup]

/-- The `max_v, max_v_cp` scan as a standalone function (identical to the
fold inside `selectMax`). -/
def maxScan (votes : List (PyStr × Nat)) (acc : Nat × PyStr) : Nat × PyStr :=
  votes.foldl (fun a cv => if cv.2 > a.1 then (cv.2, cv.1) else a) acc

theorem selectMax_eq_maxScan (votes : List (PyStr × Nat)) :
    selectMax votes = (maxScan votes (0, ([] : PyStr))).2 := rfl

theorem maxScan_cons (p : PyStr × Nat) (l : List (PyStr × Nat)) (acc : Nat × PyStr) :
    maxScan (p :: l) acc = maxScan l (if p.2 > acc.1 then (p.2, p.1) else acc) := rfl

theorem maxScan_spec (l : List (PyStr × Nat)) (m0 : Nat) (w0 : PyStr) :
    (maxScan l (m0, w0) = (m0, w0) ∧ ∀ p ∈ l, p.2 ≤ m0) ∨
    (∃ l1 l2, l = l1 ++ ((maxScan l (m0, w0)).2, (maxScan l (m0, w0)).1) :: l2 ∧
      m0 < (maxScan l (m0, w0)).1 ∧
      (∀ p ∈ l1, p.2 < (maxScan l (m0, w0)).1) ∧
      (∀ p ∈ l2, p.2 ≤ (maxScan l (m0, w0)).1)) := by
  induction l generalizing m0 w0 with
  | nil => exact Or.inl ⟨rfl, by simp⟩
  | cons p l ih =>
    obtain ⟨cp, v⟩ := p
    by_cases hv : v > m0
    · have hstep : maxScan ((cp, v) :: l) (m0, w0) = maxScan l (v, cp) := by
        rw [maxScan_cons]
        simp [hv]
      rw [hstep]
      rcases ih v cp with ⟨heq, hall⟩ | ⟨l1, l2, hd, hm, h1, h2⟩
      · refine Or.inr ⟨[], l, ?_, ?_, by simp, ?_⟩
        · rw [heq]; rfl
        · rw [heq]; exact hv
        · rw [heq]; intro q hq; exact hall q hq
      · refine Or.inr ⟨(cp, v) :: l1, l2, ?_, ?_, ?_, h2⟩
        · conv_lhs => rw [hd]
          rfl
        · omega
        · intro q hq
          rcases List.mem_cons.mp hq with hq | hq
          · subst hq; exact hm
          · exact h1 q hq
    · have hstep : maxScan ((cp, v) :: l) (m0, w0) = maxScan l (m0, w0) := by
        rw [maxScan_cons]
        simp [hv]
      rw [hstep]
      rcases ih m0 w0 with ⟨heq, hall⟩ | ⟨l1, l2, hd, hm, h1, h2⟩
      · refine Or.inl ⟨heq, ?_⟩
        intro q hq
        rcases List.mem_cons.mp hq with hq | hq
        · subst hq; exact Nat.le_of_not_lt hv
        · exact hall q hq
      · refine Or.inr ⟨(cp, v) :: l1, l2, ?_, hm, ?_, h2⟩
        · conv_lhs => rw [hd]
          rfl
        · intro q hq
          rcases List.mem_cons.mp hq with hq | hq
          · subst hq; exact lt_of_le_of_lt (Nat.le_of_not_lt hv) hm
          · exact h1 q hq

theorem voteBump_pos (votes : List (PyStr × Nat)) (cp : PyStr)
    (h : ∀ p ∈ votes, 1 ≤ p.2) : ∀ p ∈ voteBump votes cp, 1 ≤ p.2 := by
  induction votes with
  | nil =>
    intro p hp
    simp [voteBump] at hp
    subst hp
    exact le_refl 1
  | cons q rest ih =>
    obtain ⟨k, v⟩ := q
    intro p hp
    by_cases hk : k = cp
    · simp only [voteBump, if_pos hk] at hp
      rcases List.mem_cons.mp hp with hq | hq
      · subst hq; simp
      · exact h p (List.mem_cons_of_mem _ hq)
    · simp only [voteBump, if_neg hk] at hp
      rcases List.mem_cons.mp hp with hq | hq
      · subst hq; exact h (k, v) (List.mem_cons_self _ _)
      · exact ih (fun q hq => h q (List.mem_cons_of_mem _ hq)) p hq

theorem buildVotes_pos (conns : List (PyStr × (PyStr × Int))) (forget t : Int) :
    ∀ p ∈ buildVotes conns forget t, 1 ≤ p.2 := by
  unfold buildVotes
  suffices hgen : ∀ (l : List (PyStr × (PyStr × Int))) (acc : List (PyStr × Nat)),
      (∀ p ∈ acc, 1 ≤ p.2) →
      ∀ p ∈ l.foldl (fun votes kv =>
        if forget < 0 ∨ t - kv.2.2 ≤ forget then voteBump votes kv.2.1 else votes) acc,
        1 ≤ p.2 by
    exact hgen conns [] (by simp)
  intro l
  induction l with
  | nil => intro acc hacc p hp; exact hacc p hp
  | cons kv l ih =>
    intro acc hacc p hp
    rw [List.foldl_cons] at hp
    by_cases hf : forget < 0 ∨ t - kv.2.2 ≤ forget
    · rw [if_pos hf] at hp
      exact ih (voteBump acc kv.2.1) (voteBump_pos acc kv.2.1 hacc) p hp
    · rw [if_neg hf] at hp
      exact ih acc hacc p hp

theorem selectMax_decomp (votes : List (PyStr × Nat)) (hne : votes ≠ [])
    (hpos : ∀ p ∈ votes, 1 ≤ p.2) :
    ∃ l1 v l2, votes = l1 ++ (selectMax votes, v) :: l2 ∧
      (∀ p ∈ l1, p.2 < v) ∧ (∀ p ∈ l2, p.2 ≤ v) := by
  rcases maxScan_spec votes 0 [] with ⟨_, hall⟩ | ⟨l1, l2, hd, _, h1, h2⟩
  · exfalso
    match votes, hne with
    | p :: rest, _ =>
      have := hall p (List.mem_cons_self _ _)
      have := hpos p (List.mem_cons_self _ _)
      omega
  · exact ⟨l1, (maxScan votes (0, [])).1, l2, by rw [selectMax_eq_maxScan]; exact hd, h1, h2⟩

theorem buildVotes_time_congr (conns : List (PyStr × (PyStr × Int))) (forget t t2 : Int)
    (h : ∀ kv ∈ conns,
      (forget < 0 ∨ t - kv.2.2 ≤ forget) ↔ (forget < 0 ∨ t2 - kv.2.2 ≤ forget)) :
    buildVotes conns forget t2 = buildVotes conns forget t := by
  unfold buildVotes
  suffices hgen : ∀ (l : List (PyStr × (PyStr × Int))) (acc : List (PyStr × Nat)),
      (∀ kv ∈ l, (forget < 0 ∨ t - kv.2.2 ≤ forget) ↔ (forget < 0 ∨ t2 - kv.2.2 ≤ forget)) →
      l.foldl (fun votes kv =>
        if forget < 0 ∨ t2 - kv.2.2 ≤ forget then voteBump votes kv.2.1 else votes) acc =
      l.foldl (fun votes kv =>
        if forget < 0 ∨ t - kv.2.2 ≤ forget then voteBump votes kv.2.1 else votes) acc by
    exact hgen conns [] h
  intro l
  induction l with
  | nil => intro acc _; rfl
  | cons kv l ih =>
    intro acc hl
    rw [List.foldl_cons, List.foldl_cons]
    have hkv := hl kv (List.mem_cons_self _ _)
    by_cases hf : forget < 0 ∨ t - kv.2.2 ≤ forget
    · rw [if_pos hf, if_pos (hkv.mp hf)]
      exact ih _ (fun q hq => hl q (List.mem_cons_of_mem _ hq))
    · rw [if_neg hf, if_neg (fun hf2 => hf (hkv.mpr hf2))]
      exact ih _ (fun q hq => hl q (List.mem_cons_of_mem _ hq))

theorem ehyphaUpdateConnpoint_of_ne (conns : List (PyStr × (PyStr × Int)))
    (forget t : Int) (cur : Option PyStr) (hne : buildVotes conns forget t ≠ []) :
    (ehyphaUpdateConnpoint conns forget cur t).1 =
      some (selectMax (buildVotes conns forget t)) ∧
    ((ehyphaUpdateConnpoint conns forget cur t).2 = [] ↔
      cur = some (selectMax (buildVotes conns forget t))) := by
  unfold ehyphaUpdateConnpoint
  rw [if_pos (by simpa [List.length_pos] using hne)]
  unfold set_connpoint
  by_cases hc : some (selectMax (buildVotes conns forget t)) = cur
  · rw [if_pos hc]
    constructor
    · exact hc.symm
    · simp [hc.symm]
  · rw [if_neg hc]
    constructor
    · rfl
    · constructor
      · intro h2
        exfalso
        cases cur with
        | none => simp at h2
        | some c => simp at h2
      · intro h2
        exact absurd h2.symm hc

/-- C4: in `Ehypha.update` at time `t`, (i) each `connpoints_via_ecatals`
entry contributes one vote exactly when `ecatal_forget_interval < 0` or
`t - t_upd <= ecatal_forget_interval`; (ii) with a non-empty tally the
selected endpoint carries a vote count strictly above everything tallied
before it and at least everything after it (strict argmax with
first-encountered tie-break); (iii) `set_connpoint` is called with the
winner and performs socket calls only when the winner differs from the
current connpoint; (iv) a second `update` with no new catalogue input
(entry freshness unchanged) selects the same endpoint and performs no
socket call. -/
theorem c4_endpoint_voting (conns : List (PyStr × (PyStr × Int))) (forget t t2 : Int)
    (cur : Option PyStr) :
    (∀ cp, voteCount (buildVotes conns forget t) cp =
      conns.countP (fun kv =>
        decide ((forget < 0 ∨ t - kv.2.2 ≤ forget) ∧ kv.2.1 = cp))) ∧
    (buildVotes conns forget t ≠ [] →
      ∃ l1 v l2, buildVotes conns forget t =
          l1 ++ (selectMax (buildVotes conns forget t), v) :: l2 ∧
        (∀ p ∈ l1, p.2 < v) ∧ (∀ p ∈ l2, p.2 ≤ v)) ∧
    (buildVotes conns forget t ≠ [] →
      (ehyphaUpdateConnpoint conns forget cur t).1 =
        some (selectMax (buildVotes conns forget t)) ∧
      ((ehyphaUpdateConnpoint conns forget cur t).2 = [] ↔
        cur = some (selectMax (buildVotes conns forget t)))) ∧
    ((∀ kv ∈ conns,
        (forget < 0 ∨ t - kv.2.2 ≤ forget) ↔ (forget < 0 ∨ t2 - kv.2.2 ≤ forget)) →
      (ehyphaUpdateConnpoint conns forget
          (ehyphaUpdateConnpoint conns forget cur t).1 t2).1 =
        (ehyphaUpdateConnpoint conns forget cur t).1 ∧
      (ehyphaUpdateConnpoint conns forget
          (ehyphaUpdateConnpoint conns forget cur t).1 t2).2 = []) := by
  refine ⟨fun cp => buildVotes_voteCount conns forget t cp, ?_, ?_, ?_⟩
  · intro hne
    exact selectMax_decomp _ hne (buildVotes_pos conns forget t)
  · intro hne
    exact ehyphaUpdateConnpoint_of_ne conns forget t cur hne
  · intro hfresh
    have hsame : buildVotes conns forget t2 = buildVotes conns forget t :=
      buildVotes_time_congr conns forget t t2 hfresh
    by_cases hne : buildVotes conns forget t ≠ []
    · have h1 := ehyphaUpdateConnpoint_of_ne conns forget t cur hne
      have hne2 : buildVotes conns forget t2 ≠ [] := by rw [hsame]; exact hne
      have h2 := ehyphaUpdateConnpoint_of_ne conns forget t2
        (ehyphaUpdateConnpoint conns forget cur t).1 hne2
      have hw : selectMax (buildVotes conns forget t2) =
          selectMax (buildVotes conns forget t) := by rw [hsame]
      constructor
      · rw [h2.1, hw, h1.1]
      · rw [h2.2, hw, h1.1]
    · push_neg at hne
      have hstep : ehyphaUpdateConnpoint conns forget cur t = (cur, []) := by
        unfold ehyphaUpdateConnpoint
        rw [if_neg (by simp [hne])]
      have hne2 : buildVotes conns forget t2 = [] := by rw [hsame]; exact hne
      have hstep2 : ehyphaUpdateConnpoint conns forget
          (ehyphaUpdateConnpoint conns forget cur t).1 t2 =
          ((ehyphaUpdateConnpoint conns forget cur t).1, []) := by
        unfold ehyphaUpdateConnpoint
        rw [if_neg (by simp [hne2])]
      rw [hstep2]
      exact ⟨rfl, rfl⟩

/-- C4 witness: three fresh catalogue entries voting
`x, y, x` with `ecatal_forget_interval = -1`: the tally is non-empty,
`x` wins with 2 votes, and starting from no connpoint the update sets it. -/
theorem c4_endpoint_voting_witness :
    buildVotes [(['a'], (['x'], 0)), (['b'], (['y'], 0)), (['c'], (['x'], 0))]
        (-1) 0 ≠ [] ∧
    voteCount (buildVotes [(['a'], (['x'], 0)), (['b'], (['y'], 0)), (['c'], (['x'], 0))]
        (-1) 0) ['x'] = 2 ∧
    (ehyphaUpdateConnpoint [(['a'], (['x'], 0)), (['b'], (['y'], 0)), (['c'], (['x'], 0))]
        (-1) none 0).1 = some ['x'] ∧
    (ehyphaUpdateConnpoint [(['a'], (['x'], 0)), (['b'], (['y'], 0)), (['c'], (['x'], 0))]
        (-1)
        (ehyphaUpdateConnpoint [(['a'], (['x'], 0)), (['b'], (['y'], 0)), (['c'], (['x'], 0))]
          (-1) none 0).1 5).2 = [] := by
  have h := c4_endpoint_voting
    [(['a'], (['x'], 0)), (['b'], (['y'], 0)), (['c'], (['x'], 0))] (-1) 0 5 none
  refine ⟨by decide, ?_, ?_, ?_⟩
  · rw [h.1 ['x']]
    decide
  · rw [(h.2.2.1 (by decide)).1]
    decide
  · exact (h.2.2.2 (by intro kv _; simp)).2

theorem mem_foldl_pubsubWhitelistLine (lines : List PyStr) (wl : List PyStr) (k : PyStr) :
    k ∈ lines.foldl pubsubWhitelistLine wl ↔
      k ∈ wl ∨ ∃ l ∈ lines,
        KEY_Z85_LEN ≤ l.dropLast.length ∧ k = l.dropLast.take KEY_Z85_LEN := by
  induction lines generalizing wl with
  | nil => simp
  | cons line lines ih =>
    rw [List.foldl_cons, ih]
    by_cases hq : KEY_Z85_LEN ≤ line.dropLast.length
    · have hstep : pubsubWhitelistLine wl line =
          setAdd wl (line.dropLast.take KEY_Z85_LEN) := by
        simp only [pubsubWhitelistLine]
        rw [if_pos hq]
      rw [hstep, mem_setAdd]
      constructor
      · rintro ((hk | hk) | ⟨l, hl, hcond⟩)
        · exact Or.inl hk
        · exact Or.inr ⟨line, List.mem_cons_self _ _, hq, hk⟩
        · exact Or.inr ⟨l, List.mem_cons_of_mem _ hl, hcond⟩
      · rintro (hk | ⟨l, hl, hcond⟩)
        · exact Or.inl (Or.inl hk)
        · rcases List.mem_cons.mp hl with hl | hl
          · subst hl
            exact Or.inl (Or.inr hcond.2)
          · exact Or.inr ⟨l, hl, hcond⟩
    · have hstep : pubsubWhitelistLine wl line = wl := by
        simp only [pubsubWhitelistLine]
        rw [if_neg hq]
      rw [hstep]
      constructor
      · rintro (hk | ⟨l, hl, hcond⟩)
        · exact Or.inl hk
        · exact Or.inr ⟨l, List.mem_cons_of_mem _ hl, hcond⟩
      · rintro (hk | ⟨l, hl, hcond⟩)
        · exact Or.inl hk
        · rcases List.mem_cons.mp hl with hl | hl
          · subst hl
            exact absurd hcond.1 hq
          · exact Or.inr ⟨l, hl, hcond⟩

/-- C9 counterexample: the claim states that a line whose length after
trimming the trailing newline is at least 40 contributes its first 40
characters.  On a file consisting of a single 40-character line with no
trailing newline, `readlines` returns that line as-is, its
newline-trimmed length is 40, yet `read_pubsub_whitelist_publickeys`
adds nothing: the source's `line[:-1]` removes the line's last character
unconditionally, leaving 39 characters. -/
theorem c9_whitelist_reader_counterexample :
    readlines (List.replicate 40 'k') = [List.replicate 40 'k'] ∧
    (trimNewline (List.replicate 40 'k')).length = 40 ∧
    read_pubsub_whitelist_publickeys [] (List.replicate 40 'k') = [] ∧
    ¬ (trimNewline (List.replicate 40 'k')).take KEY_Z85_LEN ∈
        read_pubsub_whitelist_publickeys [] (List.replicate 40 'k') := by
  exact ⟨by decide, by decide, by decide, by decide⟩

/-- C9 (amended): each line returned by `readlines` is processed after
dropping its final character (the trailing newline when the line has
one; the last payload character otherwise).  A key `k` is in the
resulting pubsub whitelist iff it was there initially or some line's
dropped-last-character form has length at least 40 and starts with `k`'s
40 characters; the beacon reader additionally stores, for such a line,
the record `("", -1, comment)` under the key, with the comment being the
characters from position 41 of the truncated line when its length is at
least 42 and empty otherwise; shorter lines leave both readers'
states unchanged. -/
theorem c9_whitelist_reader_amended (wl : List PyStr) (recs : List (PyStr × BeaconRec))
    (content : List Char) (k : PyStr) (line : PyStr) :
    (k ∈ read_pubsub_whitelist_publickeys wl content ↔
      k ∈ wl ∨ ∃ l ∈ readlines content,
        KEY_Z85_LEN ≤ l.dropLast.length ∧ k = l.dropLast.take KEY_Z85_LEN) ∧
    (KEY_Z85_LEN ≤ line.dropLast.length →
      beaconWhitelistLine (wl, recs) line =
        (setAdd wl (line.dropLast.take KEY_Z85_LEN),
         alistSet recs (line.dropLast.take KEY_Z85_LEN)
           (([] : PyStr), (-1 : Int),
            if KEY_Z85_LEN + 2 ≤ line.dropLast.length then
              line.dropLast.drop (KEY_Z85_LEN + 1)
            else []))) ∧
    (line.dropLast.length < KEY_Z85_LEN →
      beaconWhitelistLine (wl, recs) line = (wl, recs)) := by
  refine ⟨mem_foldl_pubsubWhitelistLine (readlines content) wl k, ?_, ?_⟩
  · intro hq
    simp only [beaconWhitelistLine]
    rw [if_pos hq]
  · intro hq
    simp only [beaconWhitelistLine]
    rw [if_neg (by omega)]

/-- C9 witness: a newline-terminated 40-character line enters the pubsub
whitelist; a beacon line `40 chars ++ " c\n"` yields the key with
comment `"c"`. -/
theorem c9_whitelist_reader_amended_witness :
    (List.replicate 40 'k' ∈
      read_pubsub_whitelist_publickeys [] (List.replicate 40 'k' ++ ['\n'])) ∧
    beaconWhitelistLine ([], []) (List.replicate 40 'k' ++ [' ', 'c', '\n']) =
      ([List.replicate 40 'k'],
       [(List.replicate 40 'k', (([] : PyStr), (-1 : Int), ['c']))]) := by
  have h := c9_whitelist_reader_amended [] [] (List.replicate 40 'k' ++ ['\n'])
    (List.replicate 40 'k') (List.replicate 40 'k' ++ [' ', 'c', '\n'])
  constructor
  · apply h.1.mpr
    exact Or.inr ⟨List.replicate 40 'k' ++ ['\n'], by decide, by decide, by decide⟩
  · rw [h.2.1 (by decide)]
    decide
